import Mathlib

/-!
Shallow embedding of the tagged interval tree implemented in
`src/treeInterval.c`.  Interval endpoints are C `int` values; the
algorithms only compare endpoints and take `min`/`max` of them (the spec
treats the endpoint type as an external totally ordered ordinal type), so
they are modelled as unbounded `Int`.  Node child arrays are modelled as
`List Node`; the C code indexes them, which is mirrored with `List.get` /
`List.getD`.  Recursive procedures of the C code are modelled as
fuel-indexed structurally recursive functions returning `none` when the
fuel is exhausted, so that every definition is executable by the kernel;
with sufficient fuel they compute exactly what a terminating run of the C
code computes.  Loops whose iteration count is not syntactically bounded
(the removal scans, which insert into the list being scanned) also consume
fuel per iteration.
-/

set_option maxRecDepth 8000

namespace TagIntervalTree

/-- `IntervalNode` of `treeInterval.c`: interval `[lo,hi)`, optional tag
(the C `char* tag`, `NULL` mapped to `none`), and the dynamic array of
children. -/
inductive Node : Type where
  | mk : Int → Int → Option String → List Node → Node

/-- `interval[0]` of a node. -/
def Node.lo : Node → Int
  | .mk a _ _ _ => a

/-- `interval[1]` of a node. -/
def Node.hi : Node → Int
  | .mk _ b _ _ => b

/-- `tag` field of a node. -/
def Node.tag : Node → Option String
  | .mk _ _ t _ => t

/-- `children` array of a node. -/
def Node.children : Node → List Node
  | .mk _ _ _ c => c

instance : Inhabited Node := ⟨.mk 0 0 none []⟩

/-- `TaggedIntervalTree` of the C code: just an owned root node. -/
structure TaggedIntervalTree : Type where
  root : Node

/-- `createTaggedIntervalTree(start, end)`: root spanning the domain, no
tag, no children. -/
def createTaggedIntervalTree (start stop : Int) : TaggedIntervalTree :=
  ⟨Node.mk start stop none []⟩

/-- Insertion of an element at a given index of a child array (the C
shift-and-store at `point.index`); an index beyond the end appends. -/
def insertAt (cs : List Node) (idx : Nat) (n : Node) : List Node :=
  cs.take idx ++ [n] ++ cs.drop idx

/-- Deletion at an index, as the C shift-and-shrink loop does it: deleting
at an index at or beyond the end still decrements the length, i.e. drops
the last element. -/
def removeChildAt (cs : List Node) (idx : Nat) : List Node :=
  if idx + 1 ≥ cs.length then cs.dropLast else cs.eraseIdx idx

/-- The loop of `findInsertionPoint` (binary search over the children by
`interval[0]`).  `left`/`right` are the C `int` cursors; the fuel argument
is only a structural-recursion device: `numChildren + 1` iterations always
suffice, since the searched range shrinks strictly. -/
def fipLoop (children : List Node) (value : Int) : Nat → Int → Int → Int
  | 0, left, _ => left
  | fuel + 1, left, right =>
    if left ≤ right then
      let mid := (left + right) / 2
      let c := children.getD mid.toNat default
      if c.lo = value then mid
      else if c.lo < value then fipLoop children value fuel (mid + 1) right
      else fipLoop children value fuel left (mid - 1)
    else left

/-- `findInsertionPoint(children, numChildren, start)` of the C code. -/
def findInsertionPoint (children : List Node) (value : Int) : Nat :=
  if children.length = 0 then 0
  else (fipLoop children value (children.length + 1) 0 ((children.length : Int) - 1)).toNat

/-- `tryMergeWithNeighbors(node, newStart, newEnd, tag)`, acting on the
child array; returns the updated array and whether a merge happened.  The
left-neighbour branch extends the left neighbour's end and may absorb the
right neighbour (its children are re-homed, the node removed); the
right-neighbour branch only extends the right neighbour's start. -/
def tryMergeWithNeighbors (cs : List Node) (newStart newEnd : Int) (tag : String) :
    List Node × Bool :=
  if cs.length = 0 then (cs, false)
  else
    let index := findInsertionPoint cs newStart
    let tryRight : List Node × Bool :=
      if index < cs.length then
        let rightNeighbor := cs.getD index default
        if rightNeighbor.tag = some tag ∧ newEnd ≥ rightNeighbor.lo then
          (cs.set index
            (Node.mk (min rightNeighbor.lo newStart) rightNeighbor.hi
              rightNeighbor.tag rightNeighbor.children), true)
        else (cs, false)
      else (cs, false)
    if index > 0 then
      let leftNeighbor := cs.getD (index - 1) default
      if leftNeighbor.tag = some tag ∧ leftNeighbor.hi ≥ newStart then
        let newHi := max leftNeighbor.hi newEnd
        if index < cs.length then
          let rightNeighbor := cs.getD index default
          if rightNeighbor.tag = some tag ∧ newHi ≥ rightNeighbor.lo then
            let merged := Node.mk leftNeighbor.lo (max newHi rightNeighbor.hi)
              leftNeighbor.tag (leftNeighbor.children ++ rightNeighbor.children)
            ((cs.set (index - 1) merged).eraseIdx index, true)
          else
            (cs.set (index - 1)
              (Node.mk leftNeighbor.lo newHi leftNeighbor.tag leftNeighbor.children), true)
        else
          (cs.set (index - 1)
            (Node.mk leftNeighbor.lo newHi leftNeighbor.tag leftNeighbor.children), true)
      else tryRight
    else tryRight

/-- An entry of the `insertPoints` array of `addTagDFS`. -/
structure InsertPoint : Type where
  idx : Nat
  ipStart : Int
  ipEnd : Int
deriving DecidableEq

/-- The child-sweeping `while` loop of `addTagDFS` (lines 418–454 of the C
file): walks the children from index `i`, recursing into every child the
range overlaps (`rec` is `addTagDFS` at smaller fuel) and recording the
gaps between children as insert points.  The loop fuel `numChildren + 1`
always suffices because `i` increases at every iteration and the list
length is unchanged (children are only updated in place). -/
def sweepLoop (rec : Node → Int → Int → Option Node) (b : Int) :
    Nat → List Node → Nat → Int → List InsertPoint →
    Option (List Node × List InsertPoint × Int)
  | 0, cs, _, cur, pts => some (cs, pts, cur)
  | fuel + 1, cs, i, cur, pts =>
    if h : i < cs.length ∧ cur < b then
      let child := cs.get ⟨i, h.1⟩
      let step : Option (List Node × Int) :=
        if cur < child.hi then do
          let c' ← rec child cur b
          some (cs.set i c', child.hi)
        else some (cs, cur)
      match step with
      | none => none
      | some (cs1, cur1) =>
        let next :=
          if cur1 < b ∧ i + 1 < cs1.length ∧ cur1 < (cs1.getD (i + 1) default).lo then
            (pts ++ [⟨i + 1, cur1, min ((cs1.getD (i + 1) default).lo) b⟩],
             min ((cs1.getD (i + 1) default).lo) b)
          else (pts, cur1)
        sweepLoop rec b fuel cs1 (i + 1) next.2 next.1
    else some (cs, pts, cur)

/-- The reverse-order application of the recorded insert points (lines
476–507): for each point, try a neighbour merge first, otherwise create a
fresh tagged node and insert it at the recorded index. -/
def applyInserts (tag : String) (pts : List InsertPoint) (cs : List Node) : List Node :=
  pts.reverse.foldl
    (fun acc p =>
      match tryMergeWithNeighbors acc p.ipStart p.ipEnd tag with
      | (acc', true) => acc'
      | (_, false) => insertAt acc p.idx (Node.mk p.ipStart p.ipEnd (some tag) []))
    cs

/-- `addTagDFS(node, tag, start, end)` of the C code, fuel-indexed.  The
returned node always keeps `lo`/`hi`/`tag` of the input node; only the
child list changes. -/
def addTagDFS : Nat → Node → String → Int → Int → Option Node
  | 0, _, _, _, _ => none
  | fuel + 1, node, tag, a0, b0 =>
    let a := max a0 node.lo
    let b := min b0 node.hi
    if a ≥ b then some node
    else if node.tag = some tag then some node
    else if node.children.length = 0 then
      some (Node.mk node.lo node.hi node.tag [Node.mk a b (some tag) []])
    else
      match tryMergeWithNeighbors node.children a b tag with
      | (cs, true) => some (Node.mk node.lo node.hi node.tag cs)
      | (_, false) =>
        let i0 := findInsertionPoint node.children a
        let i1 := if i0 > 0 ∧ (node.children.getD (i0 - 1) default).hi > a then i0 - 1 else i0
        let first :=
          if i1 < node.children.length ∧ a < (node.children.getD i1 default).lo then
            ([⟨i1, a, min ((node.children.getD i1 default).lo) b⟩],
             min ((node.children.getD i1 default).lo) b)
          else (([] : List InsertPoint), a)
        match sweepLoop (fun n x y => addTagDFS fuel n tag x y) b
            (node.children.length + 1) node.children i1 first.2 first.1 with
        | none => none
        | some (cs1, pts1, cur1) =>
          let pts2 := if cur1 < b then pts1 ++ [⟨cs1.length, cur1, b⟩] else pts1
          some (Node.mk node.lo node.hi node.tag (applyInserts tag pts2 cs1))

/-- `addTag(tree, tag, start, end)`: no-op when `start >= end`, otherwise
the root DFS. -/
def addTag (fuel : Nat) (t : TaggedIntervalTree) (tag : String) (start stop : Int) :
    Option TaggedIntervalTree :=
  if start ≥ stop then some t
  else (addTagDFS fuel t.root tag start stop).map (fun n => ⟨n⟩)

/-- `RemoveState` enum of the C code. -/
inductive RemoveState : Type where
  | noOverlap
  | removeIntervalInside
  | removeIntervalLeft
  | removeIntervalRight
  | removeEntireNode
  | processedChildren
deriving DecidableEq, Repr

/-- `RemoveResult` of the C code: `removed` flag, state,
`remainingInterval` endpoints and the rehook node list. -/
structure RemoveResult : Type where
  removed : Bool
  state : RemoveState
  remStart : Int
  remEnd : Int
  rehook : List Node

/-- Child categorisation of removal case 1 (interior removal, lines
563–622): walks the children in order, sorting them into `before`
(entirely left of the removal), `after` (entirely right), the kept
overlapping survivors, and the rehook nodes collected from overlapping
children that reported full or interior removal; also returns the full
child list with every recursed child replaced by its post-recursion
version (the C mutates the children in place and leaves the array
untouched). -/
def insideScan (rec : Node → Int → Int → Option (Node × RemoveResult))
    (effStart effEnd : Int) :
    List Node → Option (List Node × List Node × List Node × List Node × List Node)
  | [] => some ([], [], [], [], [])
  | c :: rest => do
    let (before, inside, after, rehookC, newCs) ← insideScan rec effStart effEnd rest
    if c.hi ≤ effStart then
      some (c :: before, inside, after, rehookC, c :: newCs)
    else if c.lo ≥ effEnd then
      some (before, inside, c :: after, rehookC, c :: newCs)
    else do
      let (c', cr) ← rec c effStart effEnd
      if cr.removed ∧ (cr.state = RemoveState.removeEntireNode ∨
          cr.state = RemoveState.removeIntervalInside) then
        some (before, inside, after, cr.rehook ++ rehookC, c' :: newCs)
      else
        some (before, c' :: inside, after, rehookC, c' :: newCs)

/-- The child loop of removal case 2 (left-aligned removal, lines
686–755): children entirely left of the new start are marked for removal;
children straddling it are recursed into, and if fully removed their
rehook nodes starting at or after the new boundary are spliced back in at
their sorted position.  Marked indices are recorded as the loop counter at
marking time, exactly as the C records them (they are not adjusted when
later splices shift the array). -/
def leftScan (rec : Node → Int → Int → Option (Node × RemoveResult))
    (effStart effEnd : Int) :
    Nat → List Node → List Nat → Nat → Option (List Node × List Nat)
  | 0, _, _, _ => none
  | fuel + 1, cs, toRemove, i =>
    if h : i < cs.length then
      let child := cs.get ⟨i, h⟩
      if child.hi ≤ effEnd then
        leftScan rec effStart effEnd fuel cs (toRemove ++ [i]) (i + 1)
      else if child.lo < effEnd then do
        let (c', cr) ← rec child effStart effEnd
        let cs1 := cs.set i c'
        if cr.removed ∧ cr.state = RemoveState.removeEntireNode then
          let cs2 := cr.rehook.foldl
            (fun acc rn =>
              if rn.lo ≥ effEnd then insertAt acc (findInsertionPoint acc rn.lo) rn
              else acc) cs1
          leftScan rec effStart effEnd fuel cs2 (toRemove ++ [i]) (i + 1)
        else
          leftScan rec effStart effEnd fuel cs1 toRemove (i + 1)
      else
        leftScan rec effStart effEnd fuel cs toRemove (i + 1)
    else some (cs, toRemove)

/-- The child loop of removal case 3 (right-aligned removal, lines
789–858), mirror image of `leftScan`: the recursion into a straddling
child uses the child's own end as removal end, and rehook nodes ending at
or before the new boundary are spliced back. -/
def rightScan (rec : Node → Int → Int → Option (Node × RemoveResult))
    (effStart : Int) :
    Nat → List Node → List Nat → Nat → Option (List Node × List Nat)
  | 0, _, _, _ => none
  | fuel + 1, cs, toRemove, i =>
    if h : i < cs.length then
      let child := cs.get ⟨i, h⟩
      if child.lo ≥ effStart then
        rightScan rec effStart fuel cs (toRemove ++ [i]) (i + 1)
      else if child.hi > effStart then do
        let (c', cr) ← rec child effStart child.hi
        let cs1 := cs.set i c'
        if cr.removed ∧ cr.state = RemoveState.removeEntireNode then
          let cs2 := cr.rehook.foldl
            (fun acc rn =>
              if rn.hi ≤ effStart then insertAt acc (findInsertionPoint acc rn.lo) rn
              else acc) cs1
          rightScan rec effStart fuel cs2 (toRemove ++ [i]) (i + 1)
        else
          rightScan rec effStart fuel cs1 toRemove (i + 1)
      else
        rightScan rec effStart fuel cs toRemove (i + 1)
    else some (cs, toRemove)

/-- Application of the recorded removal indices, last to first (lines
758–766 / 861–869 of the C file). -/
def removeAtIndices (cs : List Node) (toRemove : List Nat) : List Node :=
  toRemove.reverse.foldl removeChildAt cs

/-- The child loop of removal case 4 (full coverage, lines 885–910):
every child overlapping the removal range is recursed into, contributing
its rehook nodes if anything was removed and itself otherwise;
non-overlapping children are handed up unchanged. -/
def entireScan (rec : Node → Int → Int → Option (Node × RemoveResult))
    (effStart effEnd : Int) : List Node → Option (List Node)
  | [] => some []
  | c :: rest => do
    let rehookRest ← entireScan rec effStart effEnd rest
    if c.lo < effEnd ∧ c.hi > effStart then do
      let (c', cr) ← rec c effStart effEnd
      if cr.removed then some (cr.rehook ++ rehookRest)
      else some (c' :: rehookRest)
    else some (c :: rehookRest)

/-- The no-tag scan of `removeTagDFS` (lines 933–1016): walks the children
from the binary-search seed, recursing with the unclipped bounds.  A child
reporting full or interior removal is deleted and its rehook nodes are
spliced in at their sorted positions, after which the cursor is re-seeded;
left/right-trimmed children survive and the cursor advances.  A non-empty
remaining interval triggers the re-invocation of the removal on the node
itself (rebuilt around the current child list).  `rec` takes the node, the
removal bounds, and returns the pair; the per-iteration fuel makes the
possibly growing scan structurally recursive. -/
def procScan (rec : Node → Int → Int → Option (Node × RemoveResult))
    (a b effStart effEnd nLo nHi : Int) (nTag : Option String) :
    Nat → List Node → Nat → Bool → Option (List Node × Bool)
  | 0, _, _, _ => none
  | fuel + 1, cs, i, removedAcc =>
    if h : i < cs.length then
      let child := cs.get ⟨i, h⟩
      if effEnd ≤ child.lo ∨ effStart ≥ child.hi then
        procScan rec a b effStart effEnd nLo nHi nTag fuel cs (i + 1) removedAcc
      else do
        let (c', cr) ← rec child a b
        if cr.removed then
          let next : List Node × Nat :=
            if cr.state = RemoveState.removeEntireNode ∨
                cr.state = RemoveState.removeIntervalInside then
              let csA := removeChildAt cs i
              let csB := cr.rehook.foldl
                (fun acc rn => insertAt acc (findInsertionPoint acc rn.lo) rn) csA
              let j := findInsertionPoint csB effStart
              let j' := if j > 0 ∧ (csB.getD (j - 1) default).hi > effStart then j - 1 else j
              (csB, j')
            else (cs.set i c', i + 1)
          if cr.remStart < cr.remEnd then do
            let (nodeSelf, _) ← rec (Node.mk nLo nHi nTag next.1) cr.remStart cr.remEnd
            procScan rec a b effStart effEnd nLo nHi nTag fuel nodeSelf.children next.2 true
          else
            procScan rec a b effStart effEnd nLo nHi nTag fuel next.1 next.2 true
        else
          procScan rec a b effStart effEnd nLo nHi nTag fuel (cs.set i c') (i + 1) removedAcc
    else some (cs, removedAcc)

/-- `removeTagDFS(node, tag, start, end)` of the C code, fuel-indexed.
The four tag-match cases and the fall-through no-tag scan follow the C
control flow; the returned node is the in-place-mutated node of the C
code (callers drop it when the state says the node was consumed). -/
def removeTagDFS : Nat → Node → String → Int → Int → Option (Node × RemoveResult)
  | 0, _, _, _, _ => none
  | fuel + 1, node, tag, a, b =>
    let effStart := max a node.lo
    let effEnd := min b node.hi
    if effStart ≥ effEnd then
      some (node, ⟨false, RemoveState.noOverlap, a, b, []⟩)
    else if node.tag = some tag ∧ effStart > node.lo ∧ effEnd < node.hi then do
      let (before, inside, after, rehookC, newCs) ←
        insideScan (fun n x y => removeTagDFS fuel n tag x y) effStart effEnd node.children
      let pre :=
        if effStart > node.lo then [Node.mk node.lo effStart (some tag) before] else before
      let post :=
        if effEnd < node.hi then [Node.mk effEnd node.hi (some tag) after] else after
      some (Node.mk node.lo node.hi node.tag newCs,
        ⟨true, RemoveState.removeIntervalInside, b, b, rehookC ++ pre ++ inside ++ post⟩)
    else if node.tag = some tag ∧ effStart ≤ node.lo ∧ effEnd < node.hi then do
      let (cs1, toRemove) ←
        leftScan (fun n x y => removeTagDFS fuel n tag x y) effStart effEnd fuel
          node.children [] 0
      some (Node.mk effEnd node.hi node.tag (removeAtIndices cs1 toRemove),
        ⟨true, RemoveState.removeIntervalLeft, effEnd, b, []⟩)
    else if node.tag = some tag ∧ effStart > node.lo ∧ effEnd ≥ node.hi then do
      let (cs1, toRemove) ←
        rightScan (fun n x y => removeTagDFS fuel n tag x y) effStart fuel
          node.children [] 0
      some (Node.mk node.lo effStart node.tag (removeAtIndices cs1 toRemove),
        ⟨true, RemoveState.removeIntervalRight, a, effStart, []⟩)
    else if node.tag = some tag ∧ effStart ≤ node.lo ∧ effEnd ≥ node.hi then do
      let rehook ←
        entireScan (fun n x y => removeTagDFS fuel n tag x y) effStart effEnd node.children
      some (Node.mk node.lo node.hi node.tag [],
        ⟨true, RemoveState.removeEntireNode, effEnd, b, rehook⟩)
    else do
      let idx0 := findInsertionPoint node.children effStart
      let startIdx :=
        if idx0 > 0 ∧ (node.children.getD (idx0 - 1) default).hi > effStart then idx0 - 1
        else idx0
      let (cs1, removed) ←
        procScan (fun n x y => removeTagDFS fuel n tag x y) a b effStart effEnd
          node.lo node.hi node.tag fuel node.children startIdx false
      let cs2 := cs1.map (fun c =>
        Node.mk (max c.lo node.lo) (min c.hi node.hi) c.tag c.children)
      some (Node.mk node.lo node.hi node.tag cs2,
        ⟨removed, RemoveState.processedChildren, max effEnd a, b, []⟩)

/-- `removeTag(tree, tag, start, end)`: `false` and no change when
`start >= end`, otherwise the root DFS; the root's rehook list is
discarded and the `removed` flag returned. -/
def removeTag (fuel : Nat) (t : TaggedIntervalTree) (tag : String) (start stop : Int) :
    Option (TaggedIntervalTree × Bool) :=
  if start ≥ stop then some (t, false)
  else (removeTagDFS fuel t.root tag start stop).map (fun p => (⟨p.1⟩, p.2.removed))

/-- The child scan of `checkTagDFS` (lines 1057–1071): from the seeded
index onward, skip children the query does not overlap and succeed as soon
as one overlapping child's recursive check succeeds. -/
def checkScan (rec : Node → Option Bool) (a b : Int) : List Node → Option Bool
  | [] => some false
  | c :: rest =>
    if b ≤ c.lo ∨ a ≥ c.hi then checkScan rec a b rest
    else do
      let r ← rec c
      if r then some true else checkScan rec a b rest

/-- `checkTagDFS(node, tag, start, end)` of the C code: true when this
node carries the tag and fully contains the query, otherwise the seeded
child scan. -/
def checkTagDFS : Nat → Node → String → Int → Int → Option Bool
  | 0, _, _, _, _ => none
  | fuel + 1, node, tag, a, b =>
    if node.tag = some tag ∧ node.lo ≤ a ∧ node.hi ≥ b then some true
    else
      let idx0 := findInsertionPoint node.children a
      let i :=
        if idx0 > 0 ∧ (node.children.getD (idx0 - 1) default).hi > a then idx0 - 1 else idx0
      checkScan (fun n => checkTagDFS fuel n tag a b) a b (node.children.drop i)

/-- `hasTag(tree, tag, start, end)`. -/
def hasTag (fuel : Nat) (t : TaggedIntervalTree) (tag : String) (start stop : Int) :
    Option Bool :=
  checkTagDFS fuel t.root tag start stop

/-- `TagMarker` of the rendering phase. -/
structure TagMarker : Type where
  position : Int
  tag : String
  isOpening : Bool
deriving DecidableEq, Repr

/-- `compareMarkers` of the C code (the `qsort` comparator): position
difference, and at equal positions opening markers compare greater than
closing markers.  C `int` subtraction is modelled exactly on `Int` (the
spec treats endpoint arithmetic as exact). -/
def compareMarkers (x y : TagMarker) : Int :=
  if x.position = y.position then (if x.isOpening then 1 else -1)
  else x.position - y.position

/-- The marker collection of `getFormattedText` over a child list. -/
def collectList (rec : Node → Option (List TagMarker)) :
    List Node → Option (List TagMarker)
  | [] => some []
  | c :: rest => do
    let m ← rec c
    let ms ← collectList rec rest
    some (m ++ ms)

/-- `collectMarkers` of `getFormattedText` (lines 1123–1141): a tagged
node contributes its opening marker then its closing marker, followed by
the markers of its children in order. -/
def collectMarkers : Nat → Node → Option (List TagMarker)
  | 0, _ => none
  | fuel + 1, node => do
    let sub ← collectList (fun n => collectMarkers fuel n) node.children
    match node.tag with
    | some tg =>
      some (⟨node.lo, tg, true⟩ :: ⟨node.hi, tg, false⟩ :: sub)
    | none => some sub

/-- Insertion step of a sorting model of the C `qsort` call, guarded by
`compareMarkers ≤ 0`: any comparison sort consistent with the comparator
orders an opening and a closing marker at equal positions the same way,
which is the only order the rendering claim depends on. -/
def insertMarker (m : TagMarker) : List TagMarker → List TagMarker
  | [] => [m]
  | y :: ys => if compareMarkers m y ≤ 0 then m :: y :: ys else y :: insertMarker m ys

/-- Comparison sort of the marker list with the C comparator. -/
def sortMarkers : List TagMarker → List TagMarker
  | [] => []
  | m :: ms => insertMarker m (sortMarkers ms)

/-- The sorted marker list that `getFormattedText` splices into the text:
collection followed by the comparator sort. -/
def treeMarkers (fuel : Nat) (t : TaggedIntervalTree) : Option (List TagMarker) :=
  (collectMarkers fuel t.root).map sortMarkers

/-- The order property of the sorted marker output: positions ascend, and
at equal positions an opening marker never precedes a closing one. -/
def MarkerOrder (x y : TagMarker) : Prop :=
  x.position < y.position ∨
    (x.position = y.position ∧ (x.isOpening = false ∨ y.isOpening = true))

/-- Invariants 1–2 of the spec's data model (plus positive width, spec
§3): children lie inside the parent, consecutive siblings are strictly
sorted by start and do not overlap, recursively. -/
inductive WellFormed : Node → Prop where
  | mk : ∀ (lo hi : Int) (tg : Option String) (cs : List Node),
      lo < hi →
      (∀ c ∈ cs, lo ≤ c.lo ∧ c.hi ≤ hi) →
      List.Chain' (fun x y => x.lo < y.lo ∧ x.hi ≤ y.lo) cs →
      (∀ c ∈ cs, WellFormed c) →
      WellFormed (Node.mk lo hi tg cs)

@[simp] theorem Node.lo_mk (a b : Int) (t : Option String) (cs : List Node) :
    (Node.mk a b t cs).lo = a := rfl

@[simp] theorem Node.hi_mk (a b : Int) (t : Option String) (cs : List Node) :
    (Node.mk a b t cs).hi = b := rfl

@[simp] theorem Node.tag_mk (a b : Int) (t : Option String) (cs : List Node) :
    (Node.mk a b t cs).tag = t := rfl

@[simp] theorem Node.children_mk (a b : Int) (t : Option String) (cs : List Node) :
    (Node.mk a b t cs).children = cs := rfl

theorem Node.eta (n : Node) : Node.mk n.lo n.hi n.tag n.children = n := by
  cases n
  rfl

theorem list_set_get_self (l : List Node) (i : Nat) (h : i < l.length) :
    l.set i (l.get ⟨i, h⟩) = l := by
  induction l generalizing i with
  | nil => simp at h
  | cons x xs ih =>
    cases i with
    | zero => rfl
    | succ j =>
      simp only [List.set, List.get]
      rw [ih j (by simpa using h)]

theorem list_map_self (l : List Node) (f : Node → Node) (h : ∀ x ∈ l, f x = x) :
    l.map f = l := by
  induction l with
  | nil => rfl
  | cons x xs ih =>
    simp only [List.map_cons]
    rw [h x (by simp), ih (fun y hy => h y (by simp [hy]))]

/-- Claim C9 (confirmed): `addTag` with `start >= end`, or with a range
that does not overlap the root's domain `[A,B)`, leaves the tree
completely unchanged: the guard in `addTag` rejects empty ranges and the
clipping at the top of `addTagDFS` turns a non-overlapping range into an
empty one before anything is modified. -/
theorem invalid_addTag_is_noop (fuel : Nat) (t : TaggedIntervalTree) (tag : String)
    (start stop : Int)
    (h : start ≥ stop ∨ stop ≤ t.root.lo ∨ start ≥ t.root.hi) :
    addTag (fuel + 1) t tag start stop = some t := by
  rcases h with h | h | h
  · simp [addTag, h]
  · rcases Decidable.em (start ≥ stop) with hse | hse
    · simp [addTag, hse]
    · have hclip : max start t.root.lo ≥ min stop t.root.hi := by
        have := le_max_right start t.root.lo
        have := min_le_left stop t.root.hi
        omega
      simp only [addTag, if_neg hse, addTagDFS, if_pos hclip]
      rfl
  · rcases Decidable.em (start ≥ stop) with hse | hse
    · simp [addTag, hse]
    · have hclip : max start t.root.lo ≥ min stop t.root.hi := by
        have := le_max_left start t.root.lo
        have := min_le_right stop t.root.hi
        omega
      simp only [addTag, if_neg hse, addTagDFS, if_pos hclip]
      rfl

/-- Witness for C9 at a concrete input: the empty range `[5,5)` and the
out-of-domain range `[12,15)` both leave a fresh `[0,10)` tree unchanged. -/
theorem invalid_addTag_is_noop_witness :
    ((5 : Int) ≥ 5 ∨ (5 : Int) ≤ (createTaggedIntervalTree 0 10).root.lo ∨
      (5 : Int) ≥ (createTaggedIntervalTree 0 10).root.hi) ∧
    addTag 4 (createTaggedIntervalTree 0 10) "x" 5 5 = some (createTaggedIntervalTree 0 10) :=
  ⟨Or.inl (le_refl 5),
   invalid_addTag_is_noop 3 (createTaggedIntervalTree 0 10) "x" 5 5 (Or.inl (le_refl 5))⟩

/-- Claim C1 (counterexample): the claim fails as stated.  On the
reachable tree obtained by `createTree(0,10); addTag("y",0,5);
addTag("z",5,10)`, the triple `("x",0,10)` is valid (`0 < 10` and `[0,10)`
overlaps the domain), yet `addTag("x",0,10)` followed by
`hasTag("x",0,10)` returns `false`: the insertion distributes `"x"` into
the two existing children, and the membership check requires a single
node to cover the whole queried range. -/
theorem hasTag_after_addTag_counterexample :
    (do
      let t1 ← addTag 20 (createTaggedIntervalTree 0 10) "y" 0 5
      let t2 ← addTag 20 t1 "z" 5 10
      let t3 ← addTag 20 t2 "x" 0 10
      hasTag 20 t3 "x" 0 10) = some false := rfl

/-- Claim C1 (amended): on a tree whose root has no children (as freshly
created trees do; the root tag is arbitrary) and a range `[a,b)` with
`a < b` contained in the domain, `addTag` followed by `hasTag` on the same
range returns `true`. -/
theorem hasTag_after_addTag_fresh (lo hi : Int) (rtag : Option String) (tag : String)
    (a b : Int) (h1 : lo ≤ a) (h2 : a < b) (h3 : b ≤ hi) :
    (addTag 1 ⟨Node.mk lo hi rtag []⟩ tag a b).bind (fun t => hasTag 3 t tag a b) =
      some true := by
  have hmax : max a lo = a := max_eq_left h1
  have hmin : min b hi = b := min_eq_left h3
  have hne : ¬ a ≥ b := not_le.mpr h2
  have hba : ¬ b ≤ a := not_le.mpr h2
  rcases Decidable.em (rtag = some tag) with hrt | hrt
  · have hadd : addTagDFS 1 (Node.mk lo hi rtag []) tag a b =
        some (Node.mk lo hi rtag []) := by
      simp [addTagDFS, hmax, hmin, hne, hrt]
    have hchk : checkTagDFS 3 (Node.mk lo hi rtag []) tag a b = some true := by
      simp [checkTagDFS, hrt, h1, h3]
    simp [addTag, if_neg hne, hadd, hasTag, hchk]
  · have hadd : addTagDFS 1 (Node.mk lo hi rtag []) tag a b =
        some (Node.mk lo hi rtag [Node.mk a b (some tag) []]) := by
      simp [addTagDFS, hmax, hmin, hne, hrt]
    have hchk : checkTagDFS 3 (Node.mk lo hi rtag [Node.mk a b (some tag) []]) tag a b =
        some true := by
      simp [checkTagDFS, checkScan, findInsertionPoint, fipLoop, hrt, hne, hba]
    simp [addTag, if_neg hne, hadd, hasTag, hchk]

/-- Witness for the amended C1 at a concrete input: domain `[0,10)`,
range `[2,5)`. -/
theorem hasTag_after_addTag_fresh_witness :
    (0 : Int) ≤ 2 ∧ (2 : Int) < 5 ∧ (5 : Int) ≤ 10 ∧
    (addTag 1 ⟨Node.mk 0 10 none []⟩ "x" 2 5).bind (fun t => hasTag 3 t "x" 2 5) =
      some true :=
  ⟨by decide, by decide, by decide,
   hasTag_after_addTag_fresh 0 10 none "x" 2 5 (by decide) (by decide) (by decide)⟩

/-- Claim C2 (code bug): after the public operation sequence
`createTree(0,20); addTag("y",0,10); addTag("x",5,15); addTag("x",5,15)`
the root's children are `[0,10)` and `[5,15)`, which overlap: the second,
identical `addTag` reaches the right-neighbour branch of
`tryMergeWithNeighbors`, which extends the right neighbour's start to
`min(10,5) = 5` without checking the left sibling, breaking the sibling
disjointness invariant the claim asserts. -/
theorem addTag_breaks_sibling_disjointness :
    ((do
      let t1 ← addTag 20 (createTaggedIntervalTree 0 20) "y" 0 10
      let t2 ← addTag 20 t1 "x" 5 15
      let t3 ← addTag 20 t2 "x" 5 15
      pure t3.root) =
      some (Node.mk 0 20 none
        [Node.mk 0 10 (some "y") [Node.mk 5 10 (some "x") []],
         Node.mk 5 15 (some "x") []])) ∧
    ¬ WellFormed (Node.mk 0 20 none
        [Node.mk 0 10 (some "y") [Node.mk 5 10 (some "x") []],
         Node.mk 5 15 (some "x") []]) := by
  refine ⟨rfl, ?_⟩
  intro h
  cases h with
  | mk lo hi tg cs hw hcont hch hrec =>
    rw [List.chain'_cons] at hch
    have := hch.1.2
    simp only [Node.hi_mk, Node.lo_mk] at this
    omega

/-- Claim C7 (code bug): `addTag` is not idempotent.  Starting from
`createTree(0,20); addTag("y",0,10)`, one call of `addTag("x",5,15)`
leaves a child `[10,15)` tagged `"x"`; the second identical call extends
that child to `[5,15)`, so the two trees differ in their intervals. -/
theorem addTag_not_idempotent :
    ((do
      let t1 ← addTag 20 (createTaggedIntervalTree 0 20) "y" 0 10
      addTag 20 t1 "x" 5 15) =
      some ⟨Node.mk 0 20 none
        [Node.mk 0 10 (some "y") [Node.mk 5 10 (some "x") []],
         Node.mk 10 15 (some "x") []]⟩) ∧
    ((do
      let t1 ← addTag 20 (createTaggedIntervalTree 0 20) "y" 0 10
      let t2 ← addTag 20 t1 "x" 5 15
      addTag 20 t2 "x" 5 15) =
      some ⟨Node.mk 0 20 none
        [Node.mk 0 10 (some "y") [Node.mk 5 10 (some "x") []],
         Node.mk 5 15 (some "x") []]⟩) ∧
    (Node.mk 10 15 (some "x") [] : Node) ≠ Node.mk 5 15 (some "x") [] := by
  refine ⟨rfl, rfl, ?_⟩
  intro h
  injection h with h1 h2 h3 h4
  exact absurd h1 (by decide)


theorem markerOrder_trans (x y z : TagMarker) (hxy : MarkerOrder x y)
    (hyz : MarkerOrder y z) : MarkerOrder x z := by
  rcases hxy with h | ⟨he, hb⟩
  · rcases hyz with h2 | ⟨he2, _⟩
    · exact Or.inl (lt_trans h h2)
    · exact Or.inl (he2 ▸ h)
  · rcases hyz with h2 | ⟨he2, hb2⟩
    · exact Or.inl (he ▸ h2)
    · refine Or.inr ⟨he.trans he2, ?_⟩
      rcases hb with hb | hb
      · exact Or.inl hb
      · rcases hb2 with hb2 | hb2
        · exact absurd hb2 (by simp [hb])
        · exact Or.inr hb2

theorem markerOrder_of_le (x y : TagMarker) (h : compareMarkers x y ≤ 0) :
    MarkerOrder x y := by
  unfold compareMarkers at h
  by_cases he : x.position = y.position
  · rw [if_pos he] at h
    cases hx : x.isOpening
    · exact Or.inr ⟨he, Or.inl hx⟩
    · rw [hx] at h
      simp at h
  · rw [if_neg he] at h
    exact Or.inl (by omega)

theorem markerOrder_of_not_le (x y : TagMarker) (h : ¬ compareMarkers x y ≤ 0) :
    MarkerOrder y x := by
  unfold compareMarkers at h
  by_cases he : x.position = y.position
  · rw [if_pos he] at h
    cases hx : x.isOpening
    · rw [hx] at h
      simp at h
    · exact Or.inr ⟨he.symm, Or.inr hx⟩
  · rw [if_neg he] at h
    exact Or.inl (by omega)

theorem mem_insertMarker (m : TagMarker) (l : List TagMarker) (x : TagMarker)
    (h : x ∈ insertMarker m l) : x = m ∨ x ∈ l := by
  induction l with
  | nil =>
    rw [insertMarker] at h
    exact Or.inl (List.mem_singleton.mp h)
  | cons y ys ih =>
    rw [insertMarker] at h
    by_cases hc : compareMarkers m y ≤ 0
    · rw [if_pos hc] at h
      rcases List.mem_cons.mp h with h | h
      · exact Or.inl h
      · exact Or.inr h
    · rw [if_neg hc] at h
      rcases List.mem_cons.mp h with h | h
      · exact Or.inr (by simp [h])
      · rcases ih h with h1 | h1
        · exact Or.inl h1
        · exact Or.inr (by simp [h1])

theorem pairwise_insertMarker (m : TagMarker) (l : List TagMarker)
    (h : l.Pairwise MarkerOrder) : (insertMarker m l).Pairwise MarkerOrder := by
  induction l with
  | nil => simp [insertMarker]
  | cons y ys ih =>
    rw [insertMarker]
    rw [List.pairwise_cons] at h
    by_cases hc : compareMarkers m y ≤ 0
    · rw [if_pos hc]
      refine List.Pairwise.cons ?_ (List.Pairwise.cons h.1 h.2)
      intro z hz
      rcases List.mem_cons.mp hz with hz | hz
      · rw [hz]
        exact markerOrder_of_le m y hc
      · exact markerOrder_trans m y z (markerOrder_of_le m y hc) (h.1 z hz)
    · rw [if_neg hc]
      refine List.Pairwise.cons ?_ (ih h.2)
      intro z hz
      rcases mem_insertMarker m ys z hz with hz1 | hz1
      · rw [hz1]
        exact markerOrder_of_not_le m y hc
      · exact h.1 z hz1

theorem pairwise_sortMarkers (l : List TagMarker) :
    (sortMarkers l).Pairwise MarkerOrder := by
  induction l with
  | nil => simp [sortMarkers]
  | cons m ms ih => exact pairwise_insertMarker m (sortMarkers ms) ih

/-- Claim C8 (confirmed): the sorted marker list of the rendering phase is
ordered by position ascending, and at equal positions a closing marker is
never placed after an opening marker; this holds for every tree, because
the comparator orders closings strictly before openings at equal
positions and the sort respects the comparator. -/
theorem markers_sorted_closing_before_opening (fuel : Nat) (t : TaggedIntervalTree)
    (ms : List TagMarker) (h : treeMarkers fuel t = some ms) :
    ms.Pairwise MarkerOrder := by
  unfold treeMarkers at h
  rcases Option.map_eq_some'.mp h with ⟨l, _, rfl⟩
  exact pairwise_sortMarkers l

/-- Witness for C8 at a concrete tree with one tie between a closing and
an opening marker at position 3. -/
theorem markers_sorted_closing_before_opening_witness :
    treeMarkers 3 ⟨Node.mk 0 10 none
        [Node.mk 0 3 (some "b") [], Node.mk 3 6 (some "i") []]⟩ =
      some [⟨0, "b", true⟩, ⟨3, "b", false⟩, ⟨3, "i", true⟩, ⟨6, "i", false⟩] ∧
    List.Pairwise MarkerOrder
      [(⟨0, "b", true⟩ : TagMarker), ⟨3, "b", false⟩, ⟨3, "i", true⟩, ⟨6, "i", false⟩] :=
  ⟨rfl,
   markers_sorted_closing_before_opening 3
     ⟨Node.mk 0 10 none [Node.mk 0 3 (some "b") [], Node.mk 3 6 (some "i") []]⟩
     [⟨0, "b", true⟩, ⟨3, "b", false⟩, ⟨3, "i", true⟩, ⟨6, "i", false⟩] rfl⟩

/-- Claim C6 (confirmed): on a fresh tree whose domain contains `[0,20)`,
inserting `"x"` on `[0,10)` and then on `[10,20)` leaves the root with a
single child `[0,20)` tagged `"x"`: the second insertion is absorbed by
the left-neighbour merge, which extends the existing child's end. -/
theorem adjacent_same_tag_insertions_merge (A B : Int) (hA : A ≤ 0) (hB : 20 ≤ B) :
    (do
      let t1 ← addTag 1 (createTaggedIntervalTree A B) "x" 0 10
      let t2 ← addTag 1 t1 "x" 10 20
      pure t2.root.children) = some [Node.mk 0 20 (some "x") []] := by
  have hmax1 : max (0 : Int) A = 0 := max_eq_left hA
  have hmin1 : min (10 : Int) B = 10 := min_eq_left (by omega)
  have hmax2 : max (10 : Int) A = 10 := max_eq_left (by omega)
  have hmin2 : min (20 : Int) B = 20 := min_eq_left hB
  have h1 : addTagDFS 1 (Node.mk A B none []) "x" 0 10 =
      some (Node.mk A B none [Node.mk 0 10 (some "x") []]) := by
    simp [addTagDFS, hmax1, hmin1]
  have h2 : addTagDFS 1 (Node.mk A B none [Node.mk 0 10 (some "x") []]) "x" 10 20 =
      some (Node.mk A B none [Node.mk 0 20 (some "x") []]) := by
    simp [addTagDFS, hmax2, hmin2, tryMergeWithNeighbors, findInsertionPoint, fipLoop]
  simp [addTag, createTaggedIntervalTree, h1, h2]

/-- Witness for C6 at the concrete domain `[0,20)`. -/
theorem adjacent_same_tag_insertions_merge_witness :
    (0 : Int) ≤ 0 ∧ (20 : Int) ≤ 20 ∧
    (do
      let t1 ← addTag 1 (createTaggedIntervalTree 0 20) "x" 0 10
      let t2 ← addTag 1 t1 "x" 10 20
      pure t2.root.children) = some [Node.mk 0 20 (some "x") []] :=
  ⟨le_refl 0, le_refl 20,
   adjacent_same_tag_insertions_merge 0 20 (le_refl 0) (le_refl 20)⟩

/-- Claim C5 (confirmed): on a fresh tree whose domain contains `[0,100)`,
after `addTag("x",0,100)` and `removeTag("x",40,60)` the untouched parts
are still covered — `hasTag("x",0,40)` and `hasTag("x",60,100)` return
`true` — while `hasTag("x",40,60)` returns `false`: the interior removal
splits the tagged node into `[0,40)` and `[60,100)`. -/
theorem partial_removal_preserves_coverage (A B : Int) (hA : A ≤ 0) (hB : 100 ≤ B) :
    (do
      let t1 ← addTag 1 (createTaggedIntervalTree A B) "x" 0 100
      let p ← removeTag 4 t1 "x" 40 60
      let q1 ← hasTag 2 p.1 "x" 0 40
      let q2 ← hasTag 2 p.1 "x" 60 100
      let q3 ← hasTag 2 p.1 "x" 40 60
      pure (q1, q2, q3)) = some (true, true, false) := by
  have hmax1 : max (0 : Int) A = 0 := max_eq_left hA
  have hmin1 : min (100 : Int) B = 100 := min_eq_left hB
  have hmax2 : max (40 : Int) A = 40 := max_eq_left (by omega)
  have hmin2 : min (60 : Int) B = 60 := min_eq_left (by omega)
  have hcl2 : min (40 : Int) B = 40 := min_eq_left (by omega)
  have hcl3 : max (60 : Int) A = 60 := max_eq_left (by omega)
  have h1 : addTagDFS 1 (Node.mk A B none []) "x" 0 100 =
      some (Node.mk A B none [Node.mk 0 100 (some "x") []]) := by
    simp [addTagDFS, hmax1, hmin1]
  have h2 : removeTagDFS 4 (Node.mk A B none [Node.mk 0 100 (some "x") []]) "x" 40 60 =
      some (Node.mk A B none [Node.mk 0 40 (some "x") [], Node.mk 60 100 (some "x") []],
        ⟨true, RemoveState.processedChildren, 60, 60, []⟩) := by
    rw [show (4 : Nat) = 3 + 1 from rfl, removeTagDFS]
    simp only [Node.lo_mk, Node.hi_mk, Node.tag_mk, Node.children_mk, hmax2, hmin2]
    trans some (Node.mk A B none
      (List.map (fun c => Node.mk (max c.lo A) (min c.hi B) c.tag c.children)
        [Node.mk 0 40 (some "x") [], Node.mk 60 100 (some "x") []]),
      (⟨true, RemoveState.processedChildren, 60, 60, []⟩ : RemoveResult))
    · rfl
    · simp [hmax1, hcl2, hcl3, hmin1]
  have h3 : checkTagDFS 2
      (Node.mk A B none [Node.mk 0 40 (some "x") [], Node.mk 60 100 (some "x") []])
      "x" 0 40 = some true := by
    simp [checkTagDFS, checkScan, findInsertionPoint, fipLoop]
  have h4 : checkTagDFS 2
      (Node.mk A B none [Node.mk 0 40 (some "x") [], Node.mk 60 100 (some "x") []])
      "x" 60 100 = some true := by
    simp [checkTagDFS, checkScan, findInsertionPoint, fipLoop]
  have h5 : checkTagDFS 2
      (Node.mk A B none [Node.mk 0 40 (some "x") [], Node.mk 60 100 (some "x") []])
      "x" 40 60 = some false := by
    simp [checkTagDFS, checkScan, findInsertionPoint, fipLoop]
  simp [addTag, removeTag, hasTag, createTaggedIntervalTree, h1, h2, h3, h4, h5]

/-- Witness for C5 at the concrete domain `[0,100)`. -/
theorem partial_removal_preserves_coverage_witness :
    (0 : Int) ≤ 0 ∧ (100 : Int) ≤ 100 ∧
    (do
      let t1 ← addTag 1 (createTaggedIntervalTree 0 100) "x" 0 100
      let p ← removeTag 4 t1 "x" 40 60
      let q1 ← hasTag 2 p.1 "x" 0 40
      let q2 ← hasTag 2 p.1 "x" 60 100
      let q3 ← hasTag 2 p.1 "x" 40 60
      pure (q1, q2, q3)) = some (true, true, false) :=
  ⟨le_refl 0, le_refl 100,
   partial_removal_preserves_coverage 0 100 (le_refl 0) (le_refl 100)⟩

theorem wellFormed_children (n : Node) (h : WellFormed n) :
    (∀ c ∈ n.children, n.lo ≤ c.lo ∧ c.hi ≤ n.hi) ∧ ∀ c ∈ n.children, WellFormed c := by
  cases h with
  | mk lo hi tg cs hw hcont hch hrec => exact ⟨hcont, hrec⟩

theorem procScan_true (rec : Node → Int → Int → Option (Node × RemoveResult))
    (a b eS eE nLo nHi : Int) (nTag : Option String) :
    ∀ (fuel : Nat) (cs : List Node) (i : Nat) (cs' : List Node) (rm : Bool),
      procScan rec a b eS eE nLo nHi nTag fuel cs i true = some (cs', rm) → rm = true := by
  intro fuel
  induction fuel with
  | zero =>
    intro cs i cs' rm h
    exact absurd h (by simp [procScan])
  | succ n ih =>
    intro cs i cs' rm h
    rw [procScan] at h
    split at h
    · dsimp only at h
      split at h
      · exact ih _ _ _ _ h
      · rcases Option.bind_eq_some.mp h with ⟨⟨c', cr⟩, hrc, h2⟩
        split at h2
        · split at h2
          · rcases Option.bind_eq_some.mp h2 with ⟨⟨ns, rr⟩, hns, h3⟩
            exact ih _ _ _ _ h3
          · exact ih _ _ _ _ h2
        · exact ih _ _ _ _ h2
    · cases h
      rfl

theorem procScan_id (rec : Node → Int → Int → Option (Node × RemoveResult))
    (a b eS eE nLo nHi : Int) (nTag : Option String)
    (hrec : ∀ m m' rr, WellFormed m → rec m a b = some (m', rr) →
      rr.removed = false → m' = m) :
    ∀ (fuel : Nat) (cs : List Node) (i : Nat) (cs' : List Node) (rm : Bool),
      (∀ c ∈ cs, WellFormed c) →
      procScan rec a b eS eE nLo nHi nTag fuel cs i false = some (cs', rm) →
      rm = false → cs' = cs := by
  intro fuel
  induction fuel with
  | zero =>
    intro cs i cs' rm _ h
    exact absurd h (by simp [procScan])
  | succ n ih =>
    intro cs i cs' rm hwf h hrm
    rw [procScan] at h
    split at h
    · rename_i hlen
      dsimp only at h
      split at h
      · exact ih cs (i + 1) cs' rm hwf h hrm
      · rcases Option.bind_eq_some.mp h with ⟨⟨c', cr⟩, hrc, h2⟩
        split at h2
        · rename_i hcrrm
          split at h2
          · rcases Option.bind_eq_some.mp h2 with ⟨⟨ns, rr⟩, hns, h3⟩
            exact absurd (procScan_true rec a b eS eE nLo nHi nTag n _ _ _ _ h3)
              (by simp [hrm])
          · exact absurd (procScan_true rec a b eS eE nLo nHi nTag n _ _ _ _ h2)
              (by simp [hrm])
        · rename_i hcrrm
          have hcf : cr.removed = false := by
            cases hcr : cr.removed
            · rfl
            · exact absurd hcr hcrrm
          have hceq : c' = cs.get ⟨i, hlen⟩ :=
            hrec _ _ _ (hwf _ (List.get_mem cs i hlen)) hrc hcf
          rw [hceq, list_set_get_self cs i hlen] at h2
          exact ih cs (i + 1) cs' rm hwf h2 hrm
    · cases h
      rfl

theorem removeTagDFS_not_removed (tag : String) :
    ∀ (fuel : Nat) (node : Node) (a b : Int) (n' : Node) (r : RemoveResult),
      WellFormed node → removeTagDFS fuel node tag a b = some (n', r) →
      r.removed = false → n' = node := by
  intro fuel
  induction fuel with
  | zero =>
    intro node a b n' r _ h
    exact absurd h (by simp [removeTagDFS])
  | succ n ih =>
    intro node a b n' r hwf h hrm
    rw [removeTagDFS] at h
    split at h
    · cases h
      rfl
    · split at h
      · rcases Option.bind_eq_some.mp h with ⟨⟨q1, q2, q3, q4, q5⟩, hq, h2⟩
        cases h2
        simp at hrm
      · split at h
        · rcases Option.bind_eq_some.mp h with ⟨⟨q1, q2⟩, hq, h2⟩
          cases h2
          simp at hrm
        · split at h
          · rcases Option.bind_eq_some.mp h with ⟨⟨q1, q2⟩, hq, h2⟩
            cases h2
            simp at hrm
          · split at h
            · rcases Option.bind_eq_some.mp h with ⟨q, hq, h2⟩
              cases h2
              simp at hrm
            · rcases Option.bind_eq_some.mp h with ⟨⟨cs1, removed⟩, hps, h2⟩
              cases h2
              simp only at hrm
              have hcs : cs1 = node.children := by
                refine procScan_id _ a b _ _ node.lo node.hi node.tag ?_ n
                  node.children _ cs1 removed (wellFormed_children node hwf).2 hps hrm
                intro m m' rr hm hrec hrr
                exact ih m a b m' rr hm hrec hrr
              subst hcs
              have hclamp : node.children.map (fun c =>
                  Node.mk (max c.lo node.lo) (min c.hi node.hi) c.tag c.children) =
                  node.children := by
                refine list_map_self _ _ ?_
                intro c hc
                have hcc := (wellFormed_children node hwf).1 c hc
                rw [max_eq_left hcc.1, min_eq_left hcc.2]
                exact Node.eta c
              rw [hclamp]
              exact Node.eta node

/-- Claim C10 (confirmed): removal is atomic on failure.  On a tree
satisfying the nesting and sortedness invariants, whenever
`removeTag(tree, tag, start, end)` returns `false` — in particular when
the tag occurs nowhere, when `start >= end`, or when the range does not
overlap the domain — the tree is left completely unchanged: the only
mutating paths of `removeTagDFS` all report `removed = true`, and the
final defensive re-clipping of children is the identity on a tree whose
children already nest inside their parents. -/
theorem removeTag_false_leaves_tree_unchanged (fuel : Nat) (t : TaggedIntervalTree)
    (tag : String) (start stop : Int) (t' : TaggedIntervalTree) (rm : Bool)
    (hwf : WellFormed t.root) (h : removeTag fuel t tag start stop = some (t', rm))
    (hrm : rm = false) : t' = t := by
  unfold removeTag at h
  split at h
  · cases h
    rfl
  · rcases Option.map_eq_some'.mp h with ⟨⟨n', r⟩, hd, heq⟩
    cases heq
    have := removeTagDFS_not_removed tag fuel t.root start stop n' r hwf hd hrm
    rw [this]

/-- Witness for C10 at a concrete input: a fresh `[0,10)` tree carries no
tag, so `removeTag("x",2,5)` returns `false` and leaves it unchanged. -/
theorem removeTag_false_leaves_tree_unchanged_witness :
    WellFormed (createTaggedIntervalTree 0 10).root ∧
    removeTag 3 (createTaggedIntervalTree 0 10) "x" 2 5 =
      some (createTaggedIntervalTree 0 10, false) ∧
    (createTaggedIntervalTree 0 10) = (createTaggedIntervalTree 0 10) :=
  ⟨WellFormed.mk 0 10 none [] (by norm_num) (by simp) (by simp) (by simp),
   rfl,
   removeTag_false_leaves_tree_unchanged 3 (createTaggedIntervalTree 0 10) "x" 2 5
     (createTaggedIntervalTree 0 10) false
     (WellFormed.mk 0 10 none [] (by norm_num) (by simp) (by simp) (by simp)) rfl rfl⟩

/-- Claim C4 (code bug): the round trip fails on a reachable tree.  After
`createTree(0,5); addTag("y",0,5); addTag("x",0,2); removeTag("y",1,3);
removeTag("x",0,1)` the root's children are `[1,2)x, [0,1)y, [3,5)y` — the
interior-removal splice inserted rehook nodes before an equal-start
sibling, leaving them unsorted.  For the valid triple `("x",0,1)`,
`addTag("x",0,1)` then silently adds nothing (`tryMergeWithNeighbors`
reports a merge with the non-covering left neighbour `[1,2)x` because its
end `2 >= 0`), and the subsequent `removeTag("x",0,1)` returns `false`
instead of the claimed `true`. -/
theorem roundtrip_removeTag_returns_false :
    (do
      let t1 ← addTag 60 (createTaggedIntervalTree 0 5) "y" 0 5
      let t2 ← addTag 60 t1 "x" 0 2
      let p1 ← removeTag 60 t2 "y" 1 3
      let p2 ← removeTag 60 p1.1 "x" 0 1
      let t3 ← addTag 60 p2.1 "x" 0 1
      let p3 ← removeTag 60 t3 "x" 0 1
      pure p3.2) = some false := rfl

end TagIntervalTree
